import Mathlib

/-!
Shallow embedding of the Base64 codec from `src/src/lib.rs`
(`CHARSET`, `PADDING`, `collect_six_bits`, `base64_encode`, `base64_decode`).

Bytes and encoded text are modelled as `List Nat` of byte values: the Rust
decoder iterates `data.bytes()` (one byte per ASCII symbol) and the encoder
builds a `String` of ASCII chars, so a byte-level model is exact.  Machine
integers (`u8`, `u16`) are modelled as `Nat`; the arithmetic stays below the
respective `2 ^ w` everywhere except the `u8` subtraction
`collected_bits -= 2` in the decoder, which is modelled by the explicit
wrap `(collected_bits + 254) % 256` (release-mode wrapping semantics; a
debug build of the source panics there instead).
-/

/-- The 64-byte alphabet, Rust
`const CHARSET: &[u8; 64] = b"ABCDEFGHIJKLMNOPQRSTUVWXYZabcdefghijklmnopqrstuvwxyz0123456789+/"`,
listed as byte values: `A`..`Z` (65-90), `a`..`z` (97-122), `0`..`9` (48-57),
`+` (43), `/` (47). -/
def CHARSET : List Nat :=
  [65, 66, 67, 68, 69, 70, 71, 72, 73, 74, 75, 76, 77,
   78, 79, 80, 81, 82, 83, 84, 85, 86, 87, 88, 89, 90,
   97, 98, 99, 100, 101, 102, 103, 104, 105, 106, 107, 108, 109,
   110, 111, 112, 113, 114, 115, 116, 117, 118, 119, 120, 121, 122,
   48, 49, 50, 51, 52, 53, 54, 55, 56, 57,
   43, 47]

/-- The padding character, Rust `const PADDING: char = '='`, as its byte
value 61 (the decoder compares against `PADDING as u8`). -/
def PADDING : Nat := 61

/-- Rust `collect_six_bits`: combine two bytes into a 16-bit value and
extract 6 bits at `offset`.  The final `% 256` is the `as u8` cast. -/
def collect_six_bits (from0 from1 : Nat) (offset : Nat) : Nat :=
  ((((from0 <<< 8) ||| from1) &&& (0b1111110000000000 >>> offset)) >>> (10 - offset)) % 256

/-- The encoder's main loop: one symbol per 6 bits of input, reading the two
bytes at `bits_encoded / 8` and the one after (or 0 past the end).  The Rust
loop breaks when `bits_encoded / 8 == data.len()`; starting from 0 the index
grows by at most one per iteration, so the first `bits_encoded` with
`data.len() ≤ bits_encoded / 8` satisfies that equality and the `≤` guard
used here is equivalent. -/
def encodeLoop (data : List Nat) (bits_encoded : Nat) : List Nat :=
  if h : data.length ≤ bits_encoded / 8 then []
  else
    CHARSET.getD
      (collect_six_bits (data.getD (bits_encoded / 8) 0)
        (if bits_encoded / 8 + 1 = data.length then 0
         else data.getD (bits_encoded / 8 + 1) 0)
        (bits_encoded % 8)) 0
    :: encodeLoop data (bits_encoded + 6)
termination_by data.length * 8 - bits_encoded
decreasing_by omega

/-- Rust `base64_encode`: the loop output followed by
`((6 - (data.len() * 8) % 6) / 2) % 3` padding characters. -/
def base64_encode (data : List Nat) : List Nat :=
  encodeLoop data 0 ++ List.replicate ((6 - data.length * 8 % 6) / 2 % 3) PADDING

/-- The decoder's two error cases.  The Rust function returns
`Err((&str, u8))`; the two distinct message strings are modelled as the two
constructors, each carrying the `u8` payload. -/
inductive DecodeError where
  /-- "Expected byte from charset, found invalid byte", with that byte. -/
  | invalidSymbol (b : Nat)
  /-- "Invalid padding", with the leftover value of `collected_bits`. -/
  | invalidPadding (bits : Nat)
deriving DecidableEq, Repr

/-- The extraction step of the decoder's `'decodeloop`: while
`collected_bits ≥ 8`, push the top 8 bits of `byte_buffer` as an output
byte, shift the buffer, and drop 8 from the count. -/
def drainLoop : Nat → Nat → List Nat → Nat × Nat × List Nat
  | collected_bits + 8, byte_buffer, outputbytes =>
    drainLoop collected_bits ((byte_buffer &&& 0b0000000011111111) <<< 8)
      (outputbytes ++ [(0b1111111100000000 &&& byte_buffer) >>> 8])
  | collected_bits, byte_buffer, outputbytes =>
    (collected_bits, byte_buffer, outputbytes)

/-- The decoder's loop, Rust `'decodeloop` with its inner
`while collected_bits < 8` reader: in the source, bytes are consumed only
while `collected_bits < 8` and an output byte is extracted whenever the
count reaches 8, so the loop is equivalently one consumed byte followed by
a full extraction run (`drainLoop`); consumption always happens at
`collected_bits < 8`, which `drainLoop` guarantees and the initial count 0
satisfies.  An alphabet byte ORs its 6-bit index into the buffer and adds 6
to the count; a padding byte decrements the `u8` count by 2 (with wrap);
anything else returns the `InvalidSymbol` error at once.  When the input
runs out, a nonzero count is the `InvalidPadding` error. -/
def decodeLoop : List Nat → Nat → Nat → List Nat → Except DecodeError (List Nat)
  | [], collected_bits, _, outputbytes =>
    if collected_bits ≠ 0 then .error (.invalidPadding collected_bits)
    else .ok outputbytes
  | nextbyte :: rest, collected_bits, byte_buffer, outputbytes =>
    match List.findIdx? (fun x => x = nextbyte) CHARSET with
    | some idx =>
      match drainLoop (collected_bits + 6)
          (byte_buffer ||| ((idx &&& 0b00111111) <<< (10 - collected_bits))) outputbytes with
      | (c, b, out) => decodeLoop rest c b out
    | none =>
      if nextbyte = PADDING then
        match drainLoop ((collected_bits + 254) % 256) byte_buffer outputbytes with
        | (c, b, out) => decodeLoop rest c b out
      else .error (.invalidSymbol nextbyte)

/-- Rust `base64_decode`: run the loop from the empty state. -/
def base64_decode (data : List Nat) : Except DecodeError (List Nat) :=
  decodeLoop data 0 0 []

/-- Count-only projection of `drainLoop`: repeated subtraction of 8 while
at least 8 bits are held. -/
def drainBits : Nat → Nat
  | c + 8 => drainBits c
  | c => c

/-- Ghost projection of the decoder loop: the value of `collected_bits`
once the whole input has been consumed, following exactly the count updates
of `decodeLoop` (`+ 6` then extraction for an alphabet byte, wrapping `- 2`
then extraction for padding).  An invalid symbol aborts the source loop;
in that case (unreachable under the validity hypotheses used below) the
current count is returned. -/
def finalBitsLoop : List Nat → Nat → Nat
  | [], collected_bits => collected_bits
  | nextbyte :: rest, collected_bits =>
    if (List.findIdx? (fun x => x = nextbyte) CHARSET).isSome then
      finalBitsLoop rest (drainBits (collected_bits + 6))
    else if nextbyte = PADDING then
      finalBitsLoop rest (drainBits ((collected_bits + 254) % 256))
    else collected_bits

/-- Ghost monitor for the `u8` subtraction `collected_bits -= 2` performed
for each padding byte: true iff some padding byte is consumed while fewer
than 2 bits are held, i.e. the subtraction underflows. -/
def underflowsLoop : List Nat → Nat → Bool
  | [], _ => false
  | nextbyte :: rest, collected_bits =>
    if (List.findIdx? (fun x => x = nextbyte) CHARSET).isSome then
      underflowsLoop rest (drainBits (collected_bits + 6))
    else if nextbyte = PADDING then
      decide (collected_bits < 2) || underflowsLoop rest (drainBits ((collected_bits + 254) % 256))
    else false

/-- Whether a run of `base64_decode` on `data` ever underflows the held-bit
count. -/
def decodeUnderflows (data : List Nat) : Bool :=
  underflowsLoop data 0

/-- Number of padding bytes at the end of an encoded text. -/
def trailingPadCount (s : List Nat) : Nat :=
  (s.reverse.takeWhile (fun x => x = PADDING)).length

/-! ### Bit-arithmetic toolkit -/

lemma and_shiftLeft_shiftRight (v m k : Nat) :
    (v &&& (m <<< k)) >>> k = (v >>> k) &&& m := by
  apply Nat.eq_of_testBit_eq
  intro j
  simp only [Nat.testBit_shiftRight, Nat.testBit_and, Nat.testBit_shiftLeft, ge_iff_le]
  have h : k ≤ k + j := Nat.le_add_right k j
  simp [h, Nat.add_sub_cancel_left]

lemma shiftLeft_shiftRight_of_le {k m : Nat} (h : k ≤ m) (a : Nat) :
    (a <<< m) >>> k = a <<< (m - k) := by
  rw [Nat.shiftLeft_eq, Nat.shiftLeft_eq, Nat.shiftRight_eq_div_pow]
  have hp : (2 : Nat) ^ m = 2 ^ (m - k) * 2 ^ k := by
    rw [← Nat.pow_add]
    congr 1
    omega
  rw [hp, ← Nat.mul_assoc, Nat.mul_div_cancel _ (Nat.two_pow_pos k)]

lemma and_sixtyThree (x : Nat) : x &&& 63 = x % 64 := by
  simpa using Nat.and_pow_two_sub_one_eq_mod x 6

lemma and_twoFiftyFive (x : Nat) : x &&& 255 = x % 256 := by
  simpa using Nat.and_pow_two_sub_one_eq_mod x 8

lemma or_add_disjoint {b : Nat} (n : Nat) (hb : b < 2 ^ n) (a : Nat) :
    2 ^ n * a ||| b = 2 ^ n * a + b :=
  (Nat.mul_add_lt_is_or hb a).symm

/-- The high-byte extraction performed by the decoder when pushing an output
byte. -/
lemma top_byte_eq (b : Nat) : (65280 &&& b) >>> 8 = b / 256 % 256 := by
  rw [Nat.and_comm]
  rw [show (65280 : Nat) = 255 <<< 8 by norm_num [Nat.shiftLeft_eq]]
  rw [and_shiftLeft_shiftRight, Nat.shiftRight_eq_div_pow, and_twoFiftyFive]

/-- The buffer update performed by the decoder when pushing an output byte. -/
lemma low_byte_shift_eq (b : Nat) : (b &&& 255) <<< 8 = b % 256 * 256 := by
  rw [and_twoFiftyFive, Nat.shiftLeft_eq]

lemma collect_six_bits_eq {from0 from1 : Nat} (h1 : from1 < 256) {offset : Nat}
    (ho : offset ≤ 10) :
    collect_six_bits from0 from1 offset = (from0 * 256 + from1) / 2 ^ (10 - offset) % 64 := by
  unfold collect_six_bits
  rw [show (64512 : Nat) = 63 <<< 10 by norm_num [Nat.shiftLeft_eq],
    shiftLeft_shiftRight_of_le ho, and_shiftLeft_shiftRight, and_sixtyThree,
    show from0 <<< 8 = 2 ^ 8 * from0 by rw [Nat.shiftLeft_eq]; ring,
    or_add_disjoint 8 (by simpa using h1) from0,
    show 2 ^ 8 * from0 + from1 = from0 * 256 + from1 by omega,
    Nat.shiftRight_eq_div_pow]
  exact Nat.mod_eq_of_lt (lt_trans (Nat.mod_lt _ (by norm_num)) (by norm_num))

lemma collect_six_bits_lt (from0 from1 : Nat) {offset : Nat} (ho : offset ≤ 10) :
    collect_six_bits from0 from1 offset < 64 := by
  unfold collect_six_bits
  rw [show (64512 : Nat) = 63 <<< 10 by norm_num [Nat.shiftLeft_eq],
    shiftLeft_shiftRight_of_le ho,
    show (63 : Nat) <<< (10 - offset) = 63 * 2 ^ (10 - offset) from
      Nat.shiftLeft_eq 63 (10 - offset),
    Nat.shiftRight_eq_div_pow]
  have h1 : (from0 <<< 8 ||| from1) &&& 63 * 2 ^ (10 - offset) ≤ 63 * 2 ^ (10 - offset) :=
    Nat.and_le_right
  have h2 : ((from0 <<< 8 ||| from1) &&& 63 * 2 ^ (10 - offset)) / 2 ^ (10 - offset) ≤
      63 * 2 ^ (10 - offset) / 2 ^ (10 - offset) := Nat.div_le_div_right h1
  have h3 : 63 * 2 ^ (10 - offset) / 2 ^ (10 - offset) = 63 :=
    Nat.mul_div_cancel _ (Nat.two_pow_pos _)
  rw [h3] at h2
  exact lt_of_le_of_lt (le_trans (Nat.mod_le _ _) h2) (by norm_num)

/-! ### Loop unfolding lemmas -/

lemma encodeLoop_stop {data : List Nat} {bits_encoded : Nat}
    (h : data.length ≤ bits_encoded / 8) : encodeLoop data bits_encoded = [] := by
  rw [encodeLoop]
  simp [h]

lemma encodeLoop_step {data : List Nat} {bits_encoded : Nat}
    (h : bits_encoded / 8 < data.length) :
    encodeLoop data bits_encoded =
      CHARSET.getD
        (collect_six_bits (data.getD (bits_encoded / 8) 0)
          (if bits_encoded / 8 + 1 = data.length then 0
           else data.getD (bits_encoded / 8 + 1) 0)
          (bits_encoded % 8)) 0
      :: encodeLoop data (bits_encoded + 6) := by
  rw [encodeLoop]
  simp [Nat.not_le.mpr h]

lemma drainLoop_of_lt {c : Nat} (h : c < 8) (b : Nat) (out : List Nat) :
    drainLoop c b out = (c, b, out) := by
  interval_cases c <;> rfl

lemma drainLoop_add_eight (c b : Nat) (out : List Nat) :
    drainLoop (c + 8) b out =
      drainLoop c ((b &&& 255) <<< 8) (out ++ [(65280 &&& b) >>> 8]) := rfl

lemma drainBits_of_lt {c : Nat} (h : c < 8) : drainBits c = c := by
  interval_cases c <;> rfl

lemma drainBits_add_eight (c : Nat) : drainBits (c + 8) = drainBits c := rfl

lemma drainBits_eq_mod (c : Nat) : drainBits c = c % 8 := by
  induction c using Nat.strong_induction_on with
  | _ c ih =>
    by_cases h : c < 8
    · rw [drainBits_of_lt h, Nat.mod_eq_of_lt h]
    · obtain ⟨c', rfl⟩ : ∃ c', c = c' + 8 := ⟨c - 8, by omega⟩
      rw [drainBits_add_eight, ih c' (by omega)]
      omega

lemma drainLoop_spec (c : Nat) : ∀ b out, ∃ ps b',
    drainLoop c b out = (c % 8, b', out ++ ps) ∧ ps.length = c / 8 := by
  induction c using Nat.strong_induction_on with
  | _ c ih =>
    intro b out
    by_cases h : c < 8
    · refine ⟨[], b, ?_, by simp; omega⟩
      rw [drainLoop_of_lt h]
      simp [Nat.mod_eq_of_lt h]
    · obtain ⟨c', rfl⟩ : ∃ c', c = c' + 8 := ⟨c - 8, by omega⟩
      rw [drainLoop_add_eight]
      obtain ⟨ps, b', hps, hlen⟩ :=
        ih c' (by omega) ((b &&& 255) <<< 8) (out ++ [(65280 &&& b) >>> 8])
      refine ⟨((65280 &&& b) >>> 8) :: ps, b', ?_, by simp only [List.length_cons, hlen]; omega⟩
      rw [hps]
      simp [Nat.add_mod_right]

lemma decodeLoop_nil (c buf : Nat) (out : List Nat) :
    decodeLoop [] c buf out =
      if c ≠ 0 then .error (.invalidPadding c) else .ok out := rfl

lemma decodeLoop_sym_step {nextbyte i : Nat}
    (hidx : List.findIdx? (fun x => x = nextbyte) CHARSET = some i)
    (rest : List Nat) (c buf : Nat) (out : List Nat) :
    decodeLoop (nextbyte :: rest) c buf out =
      (match drainLoop (c + 6) (buf ||| ((i &&& 63) <<< (10 - c))) out with
       | (c', b', o') => decodeLoop rest c' b' o') := by
  rw [decodeLoop, hidx]

lemma decodeLoop_pad_step (rest : List Nat) (c buf : Nat) (out : List Nat) :
    decodeLoop (PADDING :: rest) c buf out =
      (match drainLoop ((c + 254) % 256) buf out with
       | (c', b', o') => decodeLoop rest c' b' o') := by
  rw [decodeLoop, show List.findIdx? (fun x => x = PADDING) CHARSET = none from by decide]
  simp

lemma decodeLoop_bad_step {nextbyte : Nat}
    (hidx : List.findIdx? (fun x => x = nextbyte) CHARSET = none)
    (hpad : nextbyte ≠ PADDING) (rest : List Nat) (c buf : Nat) (out : List Nat) :
    decodeLoop (nextbyte :: rest) c buf out = .error (.invalidSymbol nextbyte) := by
  rw [decodeLoop, hidx]
  simp [hpad]

/-! ### Alphabet facts -/

lemma charset_length : CHARSET.length = 64 := rfl

lemma findIdx?_charset_getD : ∀ i, i < 64 →
    List.findIdx? (fun x => x = CHARSET.getD i 0) CHARSET = some i := by decide

lemma findIdx?_eq_none_of_not_mem {b : Nat} (h : b ∉ CHARSET) :
    List.findIdx? (fun x => x = b) CHARSET = none := by
  rw [List.findIdx?_eq_none_iff]
  intro x hx
  simp only [decide_eq_false_iff_not]
  intro hxb
  exact h (hxb ▸ hx)

lemma findIdx?_lt_of_mem {b : Nat} (h : b ∈ CHARSET) :
    ∃ i, List.findIdx? (fun x => x = b) CHARSET = some i ∧ i < 64 := by
  have hex : ∃ x, x ∈ CHARSET ∧ (fun x => decide (x = b)) x := ⟨b, h, by simp⟩
  refine ⟨CHARSET.findIdx (fun x => decide (x = b)), ?_, ?_⟩
  · exact List.findIdx?_eq_some_of_exists hex
  · have := List.findIdx_lt_length_of_exists hex
    simpa [charset_length] using this

lemma charset_mem_ne_padding : ∀ x ∈ CHARSET, x ≠ PADDING := by decide

lemma charset_getD_mem {i : Nat} (h : i < 64) : CHARSET.getD i 0 ∈ CHARSET := by
  have hl : i < CHARSET.length := by rw [charset_length]; exact h
  rw [List.getD_eq_getElem?_getD, List.getElem?_eq_getElem hl]
  exact List.getElem_mem hl

/-! ### Encoder loop facts -/

lemma encodeLoop_length_aux (data : List Nat) :
    ∀ k bits, 8 * data.length ≤ bits + k →
      (encodeLoop data bits).length = (8 * data.length - bits + 5) / 6 := by
  intro k
  induction k with
  | zero =>
    intro bits h
    rw [encodeLoop_stop (by omega : data.length ≤ bits / 8)]
    simp only [List.length_nil]
    omega
  | succ k ih =>
    intro bits h
    by_cases hc : data.length ≤ bits / 8
    · rw [encodeLoop_stop hc]
      simp only [List.length_nil]
      omega
    · rw [encodeLoop_step (by omega : bits / 8 < data.length)]
      simp only [List.length_cons, ih (bits + 6) (by omega)]
      omega

lemma encodeLoop_length (data : List Nat) (bits : Nat) :
    (encodeLoop data bits).length = (8 * data.length - bits + 5) / 6 :=
  encodeLoop_length_aux data (8 * data.length) bits (by omega)

lemma encodeLoop_mem_charset (data : List Nat) :
    ∀ k bits, 8 * data.length ≤ bits + k →
      ∀ x ∈ encodeLoop data bits, x ∈ CHARSET := by
  intro k
  induction k with
  | zero =>
    intro bits h x hx
    rw [encodeLoop_stop (by omega : data.length ≤ bits / 8)] at hx
    simp at hx
  | succ k ih =>
    intro bits h x hx
    by_cases hc : data.length ≤ bits / 8
    · rw [encodeLoop_stop hc] at hx
      simp at hx
    · rw [encodeLoop_step (by omega : bits / 8 < data.length)] at hx
      rcases List.mem_cons.mp hx with h1 | h2
      · subst h1
        exact charset_getD_mem (collect_six_bits_lt _ _ (by omega))
      · exact ih (bits + 6) (by omega) x h2

lemma base64_encode_mem_charset {b : List Nat} :
    ∀ x ∈ encodeLoop b 0, x ∈ CHARSET :=
  encodeLoop_mem_charset b (8 * b.length) 0 (by omega)

lemma encodeLoop_shift (p data : List Nat) :
    ∀ k bits, 8 * data.length ≤ bits + k →
      encodeLoop (p ++ data) (8 * p.length + bits) = encodeLoop data bits := by
  intro k
  induction k with
  | zero =>
    intro bits h
    rw [encodeLoop_stop (show (p ++ data).length ≤ (8 * p.length + bits) / 8 by
        simp only [List.length_append]; omega),
      encodeLoop_stop (by omega : data.length ≤ bits / 8)]
  | succ k ih =>
    intro bits h
    by_cases hc : data.length ≤ bits / 8
    · rw [encodeLoop_stop (show (p ++ data).length ≤ (8 * p.length + bits) / 8 by
          simp only [List.length_append]; omega),
        encodeLoop_stop hc]
    · have hlt : bits / 8 < data.length := by omega
      rw [encodeLoop_step (show (8 * p.length + bits) / 8 < (p ++ data).length by
          simp only [List.length_append]; omega),
        encodeLoop_step hlt]
      have hidx : (8 * p.length + bits) / 8 = p.length + bits / 8 := by omega
      have hmod : (8 * p.length + bits) % 8 = bits % 8 := by omega
      have hA : (p ++ data).getD ((8 * p.length + bits) / 8) 0 = data.getD (bits / 8) 0 := by
        rw [hidx, List.getD_append_right p data 0 _ (by omega)]
        congr 1
        omega
      have hB : (if (8 * p.length + bits) / 8 + 1 = (p ++ data).length then 0
            else (p ++ data).getD ((8 * p.length + bits) / 8 + 1) 0) =
          (if bits / 8 + 1 = data.length then 0 else data.getD (bits / 8 + 1) 0) := by
        by_cases hb : bits / 8 + 1 = data.length
        · rw [if_pos hb, if_pos (by simp only [List.length_append]; omega)]
        · rw [if_neg hb, if_neg (by simp only [List.length_append]; omega),
            hidx, List.getD_append_right p data 0 _ (by omega)]
          congr 1
          omega
      rw [hA, hB, hmod]
      have ht : 8 * p.length + bits + 6 = 8 * p.length + (bits + 6) := by omega
      rw [ht, ih (bits + 6) (by omega)]

/-! ### Encoder evaluation on chunks -/

lemma base64_encode_nil : base64_encode [] = [] := by
  rw [base64_encode, encodeLoop_stop (by simp)]
  norm_num

lemma base64_encode_one {x : Nat} (hx : x < 256) :
    base64_encode [x] =
      [CHARSET.getD (x / 4) 0, CHARSET.getD (x % 4 * 16) 0, PADDING, PADDING] := by
  have c0 : collect_six_bits x 0 0 = x / 4 := by
    rw [collect_six_bits_eq (by norm_num) (by norm_num)]
    norm_num
    omega
  have c6 : collect_six_bits x 0 6 = x % 4 * 16 := by
    rw [collect_six_bits_eq (by norm_num) (by norm_num)]
    norm_num
    omega
  rw [base64_encode, encodeLoop_step (by norm_num), encodeLoop_step (by norm_num),
    encodeLoop_stop (by norm_num)]
  norm_num [c0, c6, List.replicate]

lemma base64_encode_two {x y : Nat} (hx : x < 256) (hy : y < 256) :
    base64_encode [x, y] =
      [CHARSET.getD (x / 4) 0, CHARSET.getD (x % 4 * 16 + y / 16) 0,
       CHARSET.getD (y % 16 * 4) 0, PADDING] := by
  have c0 : collect_six_bits x y 0 = x / 4 := by
    rw [collect_six_bits_eq hy (by norm_num)]
    norm_num
    omega
  have c6 : collect_six_bits x y 6 = x % 4 * 16 + y / 16 := by
    rw [collect_six_bits_eq hy (by norm_num)]
    norm_num
    omega
  have c12 : collect_six_bits y 0 4 = y % 16 * 4 := by
    rw [collect_six_bits_eq (by norm_num) (by norm_num)]
    norm_num
    omega
  rw [base64_encode, encodeLoop_step (by norm_num), encodeLoop_step (by norm_num),
    encodeLoop_step (by norm_num), encodeLoop_stop (by norm_num)]
  norm_num [c0, c6, c12, List.replicate]

lemma base64_encode_cons3 {x y z : Nat} (hx : x < 256) (hy : y < 256) (hz : z < 256)
    {rest : List Nat} (hr : ∀ w ∈ rest, w < 256) :
    base64_encode (x :: y :: z :: rest) =
      CHARSET.getD (x / 4) 0 :: CHARSET.getD (x % 4 * 16 + y / 16) 0 ::
      CHARSET.getD (y % 16 * 4 + z / 64) 0 :: CHARSET.getD (z % 64) 0 ::
      base64_encode rest := by
  have c0 : collect_six_bits x y 0 = x / 4 := by
    rw [collect_six_bits_eq hy (by norm_num)]
    norm_num
    omega
  have c6 : collect_six_bits x y 6 = x % 4 * 16 + y / 16 := by
    rw [collect_six_bits_eq hy (by norm_num)]
    norm_num
    omega
  have c12 : collect_six_bits y z 4 = y % 16 * 4 + z / 64 := by
    rw [collect_six_bits_eq hz (by norm_num)]
    norm_num
    omega
  have c18 : ∀ w, w < 256 → collect_six_bits z w 2 = z % 64 := by
    intro w hw
    rw [collect_six_bits_eq hw (by norm_num)]
    norm_num
    omega
  have hshift : encodeLoop (x :: y :: z :: rest) 24 = encodeLoop rest 0 := by
    have h := encodeLoop_shift [x, y, z] rest (8 * rest.length) 0 (by omega)
    norm_num at h
    exact h
  have hpad : (6 - (x :: y :: z :: rest).length * 8 % 6) / 2 % 3 =
      (6 - rest.length * 8 % 6) / 2 % 3 := by
    simp only [List.length_cons]
    omega
  unfold base64_encode
  rw [encodeLoop_step (by simp), encodeLoop_step (by norm_num),
    encodeLoop_step (by norm_num), encodeLoop_step (by norm_num),
    show (0 : Nat) + 6 + 6 + 6 + 6 = 24 from by norm_num, hshift, hpad]
  simp only [List.cons_append, List.length_cons, List.getD_cons_zero, List.getD_cons_succ]
  norm_num [c0, c6, c12]
  cases rest with
  | nil => rw [if_pos rfl, c18 0 (by norm_num)]
  | cons r rtail =>
    rw [if_neg (by simp)]
    simp only [List.getElem?_cons_zero, Option.getD_some]
    rw [c18 r (hr r (by simp))]

/-! ### Decoder evaluation on chunks -/

lemma idx_and_63 {i : Nat} (h : i < 64) : i &&& 63 = i := by
  rw [and_sixtyThree, Nat.mod_eq_of_lt h]

lemma decodeLoop_pad_low {c : Nat} (hc : 2 ≤ c) (hc8 : c < 8) (rest : List Nat)
    (buf : Nat) (out : List Nat) :
    decodeLoop (PADDING :: rest) c buf out = decodeLoop rest (c - 2) buf out := by
  rw [decodeLoop_pad_step, show (c + 254) % 256 = c - 2 from by omega,
    drainLoop_of_lt (by omega)]

lemma decodeLoop_group {i1 i2 i3 i4 : Nat} (h1 : i1 < 64) (h2 : i2 < 64)
    (h3 : i3 < 64) (h4 : i4 < 64) (rest out : List Nat) :
    decodeLoop (CHARSET.getD i1 0 :: CHARSET.getD i2 0 :: CHARSET.getD i3 0 ::
        CHARSET.getD i4 0 :: rest) 0 0 out =
      decodeLoop rest 0 0
        (out ++ [i1 * 4 + i2 / 16, i2 % 16 * 16 + i3 / 4, i3 % 4 * 64 + i4]) := by
  rw [decodeLoop_sym_step (findIdx?_charset_getD i1 h1),
    show ((0 : Nat) ||| (i1 &&& 63) <<< (10 - 0)) = i1 * 1024 by
      rw [Nat.zero_or, idx_and_63 h1, Nat.shiftLeft_eq],
    drainLoop_of_lt (by norm_num)]
  dsimp only
  rw [decodeLoop_sym_step (findIdx?_charset_getD i2 h2),
    show (i1 * 1024 ||| (i2 &&& 63) <<< (10 - (0 + 6))) = i1 * 1024 + i2 * 16 by
      rw [idx_and_63 h2, Nat.shiftLeft_eq,
        show (10 - ((0 : Nat) + 6)) = 4 from by norm_num,
        show i1 * 1024 = 2 ^ 10 * i1 from by ring,
        show i2 * 2 ^ 4 = i2 * 16 from by norm_num,
        or_add_disjoint 10 (by omega) i1],
    show (0 : Nat) + 6 + 6 = 4 + 8 from by norm_num,
    drainLoop_add_eight, top_byte_eq, low_byte_shift_eq,
    show (i1 * 1024 + i2 * 16) / 256 % 256 = i1 * 4 + i2 / 16 from by omega,
    show (i1 * 1024 + i2 * 16) % 256 * 256 = i2 % 16 * 4096 from by omega,
    drainLoop_of_lt (by norm_num)]
  dsimp only
  rw [decodeLoop_sym_step (findIdx?_charset_getD i3 h3),
    show (i2 % 16 * 4096 ||| (i3 &&& 63) <<< (10 - 4)) = i2 % 16 * 4096 + i3 * 64 by
      rw [idx_and_63 h3, Nat.shiftLeft_eq,
        show (10 - (4 : Nat)) = 6 from by norm_num,
        show i2 % 16 * 4096 = 2 ^ 12 * (i2 % 16) from by ring,
        show i3 * 2 ^ 6 = i3 * 64 from by norm_num,
        or_add_disjoint 12 (by omega) (i2 % 16)],
    show (4 : Nat) + 6 = 2 + 8 from by norm_num,
    drainLoop_add_eight, top_byte_eq, low_byte_shift_eq,
    show (i2 % 16 * 4096 + i3 * 64) / 256 % 256 = i2 % 16 * 16 + i3 / 4 from by omega,
    show (i2 % 16 * 4096 + i3 * 64) % 256 * 256 = i3 % 4 * 16384 from by omega,
    drainLoop_of_lt (by norm_num)]
  dsimp only
  rw [decodeLoop_sym_step (findIdx?_charset_getD i4 h4),
    show (i3 % 4 * 16384 ||| (i4 &&& 63) <<< (10 - 2)) = i3 % 4 * 16384 + i4 * 256 by
      rw [idx_and_63 h4, Nat.shiftLeft_eq,
        show (10 - (2 : Nat)) = 8 from by norm_num,
        show i3 % 4 * 16384 = 2 ^ 14 * (i3 % 4) from by ring,
        show i4 * 2 ^ 8 = i4 * 256 from by norm_num,
        or_add_disjoint 14 (by omega) (i3 % 4)],
    show (2 : Nat) + 6 = 0 + 8 from by norm_num,
    drainLoop_add_eight, top_byte_eq, low_byte_shift_eq,
    show (i3 % 4 * 16384 + i4 * 256) / 256 % 256 = i3 % 4 * 64 + i4 from by omega,
    show (i3 % 4 * 16384 + i4 * 256) % 256 * 256 = 0 from by omega,
    drainLoop_of_lt (by norm_num)]
  dsimp only
  simp [List.append_assoc]

lemma decodeLoop_two_syms_pads {i1 i2 : Nat} (h1 : i1 < 64) (h2 : i2 < 64) (out : List Nat) :
    decodeLoop [CHARSET.getD i1 0, CHARSET.getD i2 0, PADDING, PADDING] 0 0 out =
      .ok (out ++ [i1 * 4 + i2 / 16]) := by
  rw [decodeLoop_sym_step (findIdx?_charset_getD i1 h1),
    show ((0 : Nat) ||| (i1 &&& 63) <<< (10 - 0)) = i1 * 1024 by
      rw [Nat.zero_or, idx_and_63 h1, Nat.shiftLeft_eq],
    drainLoop_of_lt (by norm_num)]
  dsimp only
  rw [decodeLoop_sym_step (findIdx?_charset_getD i2 h2),
    show (i1 * 1024 ||| (i2 &&& 63) <<< (10 - (0 + 6))) = i1 * 1024 + i2 * 16 by
      rw [idx_and_63 h2, Nat.shiftLeft_eq,
        show (10 - ((0 : Nat) + 6)) = 4 from by norm_num,
        show i1 * 1024 = 2 ^ 10 * i1 from by ring,
        show i2 * 2 ^ 4 = i2 * 16 from by norm_num,
        or_add_disjoint 10 (by omega) i1],
    show (0 : Nat) + 6 + 6 = 4 + 8 from by norm_num,
    drainLoop_add_eight, top_byte_eq, low_byte_shift_eq,
    show (i1 * 1024 + i2 * 16) / 256 % 256 = i1 * 4 + i2 / 16 from by omega,
    drainLoop_of_lt (by norm_num)]
  dsimp only
  rw [decodeLoop_pad_low (by norm_num) (by norm_num),
    show (4 : Nat) - 2 = 2 from by norm_num,
    decodeLoop_pad_low (by norm_num) (by norm_num),
    show (2 : Nat) - 2 = 0 from by norm_num, decodeLoop_nil]
  norm_num

lemma decodeLoop_three_syms_pad {i1 i2 i3 : Nat} (h1 : i1 < 64) (h2 : i2 < 64)
    (h3 : i3 < 64) (out : List Nat) :
    decodeLoop [CHARSET.getD i1 0, CHARSET.getD i2 0, CHARSET.getD i3 0, PADDING] 0 0 out =
      .ok (out ++ [i1 * 4 + i2 / 16, i2 % 16 * 16 + i3 / 4]) := by
  rw [decodeLoop_sym_step (findIdx?_charset_getD i1 h1),
    show ((0 : Nat) ||| (i1 &&& 63) <<< (10 - 0)) = i1 * 1024 by
      rw [Nat.zero_or, idx_and_63 h1, Nat.shiftLeft_eq],
    drainLoop_of_lt (by norm_num)]
  dsimp only
  rw [decodeLoop_sym_step (findIdx?_charset_getD i2 h2),
    show (i1 * 1024 ||| (i2 &&& 63) <<< (10 - (0 + 6))) = i1 * 1024 + i2 * 16 by
      rw [idx_and_63 h2, Nat.shiftLeft_eq,
        show (10 - ((0 : Nat) + 6)) = 4 from by norm_num,
        show i1 * 1024 = 2 ^ 10 * i1 from by ring,
        show i2 * 2 ^ 4 = i2 * 16 from by norm_num,
        or_add_disjoint 10 (by omega) i1],
    show (0 : Nat) + 6 + 6 = 4 + 8 from by norm_num,
    drainLoop_add_eight, top_byte_eq, low_byte_shift_eq,
    show (i1 * 1024 + i2 * 16) / 256 % 256 = i1 * 4 + i2 / 16 from by omega,
    show (i1 * 1024 + i2 * 16) % 256 * 256 = i2 % 16 * 4096 from by omega,
    drainLoop_of_lt (by norm_num)]
  dsimp only
  rw [decodeLoop_sym_step (findIdx?_charset_getD i3 h3),
    show (i2 % 16 * 4096 ||| (i3 &&& 63) <<< (10 - 4)) = i2 % 16 * 4096 + i3 * 64 by
      rw [idx_and_63 h3, Nat.shiftLeft_eq,
        show (10 - (4 : Nat)) = 6 from by norm_num,
        show i2 % 16 * 4096 = 2 ^ 12 * (i2 % 16) from by ring,
        show i3 * 2 ^ 6 = i3 * 64 from by norm_num,
        or_add_disjoint 12 (by omega) (i2 % 16)],
    show (4 : Nat) + 6 = 2 + 8 from by norm_num,
    drainLoop_add_eight, top_byte_eq, low_byte_shift_eq,
    show (i2 % 16 * 4096 + i3 * 64) / 256 % 256 = i2 % 16 * 16 + i3 / 4 from by omega,
    drainLoop_of_lt (by norm_num)]
  dsimp only
  rw [decodeLoop_pad_low (by norm_num) (by norm_num),
    show (2 : Nat) - 2 = 0 from by norm_num, decodeLoop_nil]
  norm_num [List.append_assoc]

/-! ### The round trip -/

lemma decode_encode_aux :
    ∀ n (b : List Nat), b.length ≤ n → (∀ w ∈ b, w < 256) →
      ∀ out, decodeLoop (base64_encode b) 0 0 out = .ok (out ++ b) := by
  intro n
  induction n with
  | zero =>
    intro b hb hw out
    have hnil : b = [] := List.eq_nil_of_length_eq_zero (by omega)
    subst hnil
    rw [base64_encode_nil, decodeLoop_nil]
    norm_num
  | succ n ih =>
    intro b hb hw out
    rcases b with _ | ⟨x, _ | ⟨y, _ | ⟨z, rest⟩⟩⟩
    · rw [base64_encode_nil, decodeLoop_nil]
      norm_num
    · have hx : x < 256 := hw x (by simp)
      rw [base64_encode_one hx,
        decodeLoop_two_syms_pads (by omega) (by omega),
        show x / 4 * 4 + x % 4 * 16 / 16 = x from by omega]
    · have hx : x < 256 := hw x (by simp)
      have hy : y < 256 := hw y (by simp)
      rw [base64_encode_two hx hy,
        decodeLoop_three_syms_pad (by omega) (by omega) (by omega),
        show x / 4 * 4 + (x % 4 * 16 + y / 16) / 16 = x from by omega,
        show (x % 4 * 16 + y / 16) % 16 * 16 + y % 16 * 4 / 4 = y from by omega]
    · have hx : x < 256 := hw x (by simp)
      have hy : y < 256 := hw y (by simp)
      have hz : z < 256 := hw z (by simp)
      have hr : ∀ w ∈ rest, w < 256 := fun w hwm => hw w (by simp [hwm])
      rw [base64_encode_cons3 hx hy hz hr,
        decodeLoop_group (by omega) (by omega) (by omega) (by omega),
        show x / 4 * 4 + (x % 4 * 16 + y / 16) / 16 = x from by omega,
        show (x % 4 * 16 + y / 16) % 16 * 16 + (y % 16 * 4 + z / 64) / 4 = y from by omega,
        show (y % 16 * 4 + z / 64) % 4 * 64 + z % 64 = z from by omega,
        ih rest (by simp at hb; omega) hr (out ++ [x, y, z])]
      simp

/-- Shared helper: decoding an encoding of any byte sequence gives it back. -/
lemma decode_encode_ok {b : List Nat} (hw : ∀ w ∈ b, w < 256) :
    base64_decode (base64_encode b) = .ok b := by
  have h := decode_encode_aux b.length b le_rfl hw []
  simpa [base64_decode] using h

/-! ### Decoder behaviour on well-formed and malformed inputs -/

/-- On input made of alphabet and padding bytes only, the decoder's result
is decided by the final held-bit count: zero gives `Ok`, nonzero gives
`InvalidPadding` with that count. -/
lemma decodeLoop_valid_spec :
    ∀ (s : List Nat) (c buf : Nat) (out : List Nat),
      (∀ x ∈ s, x ∈ CHARSET ∨ x = PADDING) → c < 8 →
      (finalBitsLoop s c = 0 → ∃ bs, decodeLoop s c buf out = .ok bs) ∧
      (finalBitsLoop s c ≠ 0 →
        decodeLoop s c buf out = .error (.invalidPadding (finalBitsLoop s c))) := by
  intro s
  induction s with
  | nil =>
    intro c buf out hval hc
    constructor
    · intro h0
      refine ⟨out, ?_⟩
      rw [decodeLoop_nil, if_neg]
      simp only [ne_eq, not_not]
      exact h0
    · intro hne
      rw [decodeLoop_nil]
      exact if_pos (show c ≠ 0 from hne)
  | cons b rest ih =>
    intro c buf out hval hc
    have hbrest : ∀ x ∈ rest, x ∈ CHARSET ∨ x = PADDING := fun x hx => hval x (by simp [hx])
    rcases hval b (by simp) with hmem | hpad
    · obtain ⟨i, hidx, hi⟩ := findIdx?_lt_of_mem hmem
      have hfin : finalBitsLoop (b :: rest) c = finalBitsLoop rest (drainBits (c + 6)) := by
        rw [finalBitsLoop, if_pos (by rw [hidx]; rfl)]
      rw [decodeLoop_sym_step hidx]
      obtain ⟨ps, b', hdl, hlen⟩ := drainLoop_spec (c + 6) (buf ||| ((i &&& 63) <<< (10 - c))) out
      rw [hdl]
      dsimp only
      rw [hfin, drainBits_eq_mod]
      exact ih ((c + 6) % 8) b' (out ++ ps) hbrest (by omega)
    · subst hpad
      have hfin : finalBitsLoop (PADDING :: rest) c =
          finalBitsLoop rest (drainBits ((c + 254) % 256)) := by
        rw [finalBitsLoop,
          if_neg (by rw [show List.findIdx? (fun x => x = PADDING) CHARSET = none from by decide]; simp),
          if_pos rfl]
      rw [decodeLoop_pad_step]
      obtain ⟨ps, b', hdl, hlen⟩ := drainLoop_spec ((c + 254) % 256) buf out
      rw [hdl]
      dsimp only
      rw [hfin, drainBits_eq_mod]
      exact ih ((c + 254) % 256 % 8) b' (out ++ ps) hbrest (by omega)

/-- On input made of alphabet bytes only, the decoder emits one output byte
per full 8 bits of the 6-bit-per-symbol stream, and fails with the leftover
bit count when it is nonzero. -/
lemma decodeLoop_charset_spec :
    ∀ (s : List Nat) (c buf : Nat) (out : List Nat),
      (∀ x ∈ s, x ∈ CHARSET) → c < 8 →
      ∃ bs : List Nat, bs.length = (c + 6 * s.length) / 8 ∧
        decodeLoop s c buf out =
          (if (c + 6 * s.length) % 8 = 0 then .ok (out ++ bs)
           else .error (.invalidPadding ((c + 6 * s.length) % 8))) := by
  intro s
  induction s with
  | nil =>
    intro c buf out hval hc
    refine ⟨[], by simp only [List.length_nil]; omega, ?_⟩
    rw [decodeLoop_nil]
    simp only [List.length_nil, Nat.mul_zero, Nat.add_zero, Nat.mod_eq_of_lt hc]
    by_cases h0 : c = 0 <;> simp [h0]
  | cons b rest ih =>
    intro c buf out hval hc
    obtain ⟨i, hidx, hi⟩ := findIdx?_lt_of_mem (hval b (by simp))
    rw [decodeLoop_sym_step hidx]
    obtain ⟨ps, b', hdl, hlen⟩ := drainLoop_spec (c + 6) (buf ||| ((i &&& 63) <<< (10 - c))) out
    rw [hdl]
    dsimp only
    obtain ⟨bs, hbslen, hbs⟩ :=
      ih ((c + 6) % 8) b' (out ++ ps) (fun x hx => hval x (by simp [hx])) (by omega)
    refine ⟨ps ++ bs, ?_, ?_⟩
    · rw [List.length_append, hlen, hbslen]
      simp only [List.length_cons]
      omega
    · rw [hbs]
      simp only [List.length_cons]
      rw [show ((c + 6) % 8 + 6 * rest.length) % 8 = (c + 6 * (rest.length + 1)) % 8 from by omega,
        List.append_assoc]

/-- A byte outside the alphabet that is not the padding byte makes the
decoder fail at once with `InvalidSymbol`, whatever came before it (as long
as it was consumed without an `InvalidSymbol` of its own) and whatever
comes after. -/
lemma decodeLoop_invalid_spec :
    ∀ (pre : List Nat) (bb : Nat) (rest : List Nat) (c buf : Nat) (out : List Nat),
      (∀ x ∈ pre, x ∈ CHARSET ∨ x = PADDING) → bb ∉ CHARSET → bb ≠ PADDING → c < 8 →
      decodeLoop (pre ++ bb :: rest) c buf out = .error (.invalidSymbol bb) := by
  intro pre
  induction pre with
  | nil =>
    intro bb rest c buf out hval hmem hpad hc
    rw [List.nil_append, decodeLoop_bad_step (findIdx?_eq_none_of_not_mem hmem) hpad]
  | cons p pre ih =>
    intro bb rest c buf out hval hmem hpad hc
    rcases hval p (by simp) with hpm | hpp
    · obtain ⟨i, hidx, hi⟩ := findIdx?_lt_of_mem hpm
      rw [List.cons_append, decodeLoop_sym_step hidx]
      obtain ⟨ps, b', hdl, hlen⟩ := drainLoop_spec (c + 6) (buf ||| ((i &&& 63) <<< (10 - c))) out
      rw [hdl]
      dsimp only
      exact ih bb rest ((c + 6) % 8) b' (out ++ ps)
        (fun x hx => hval x (by simp [hx])) hmem hpad (by omega)
    · subst hpp
      rw [List.cons_append, decodeLoop_pad_step]
      obtain ⟨ps, b', hdl, hlen⟩ := drainLoop_spec ((c + 254) % 256) buf out
      rw [hdl]
      dsimp only
      exact ih bb rest ((c + 254) % 256 % 8) b' (out ++ ps)
        (fun x hx => hval x (by simp [hx])) hmem hpad (by omega)

/-! ### Length and padding-count facts -/

lemma base64_encode_length (b : List Nat) :
    (base64_encode b).length = (8 * b.length + 5) / 6 + (6 - b.length * 8 % 6) / 2 % 3 := by
  unfold base64_encode
  rw [List.length_append, List.length_replicate, encodeLoop_length]
  norm_num

lemma takeWhile_replicate_append (k : Nat) (t : List Nat) :
    (List.replicate k PADDING ++ t).takeWhile (fun x => x = PADDING) =
      List.replicate k PADDING ++ t.takeWhile (fun x => x = PADDING) := by
  induction k with
  | zero => simp
  | succ k ih => simp [List.replicate_succ, List.takeWhile_cons, ih]

lemma takeWhile_pad_of_charset (t : List Nat) (ht : ∀ x ∈ t, x ∈ CHARSET) :
    t.takeWhile (fun x => x = PADDING) = [] := by
  cases t with
  | nil => rfl
  | cons a s =>
    have ha : a ≠ PADDING := charset_mem_ne_padding a (ht a (by simp))
    rw [List.takeWhile_cons, if_neg (by simp [ha])]

lemma trailingPadCount_encode (b : List Nat) :
    trailingPadCount (base64_encode b) = (6 - b.length * 8 % 6) / 2 % 3 := by
  unfold trailingPadCount base64_encode
  rw [List.reverse_append, List.reverse_replicate, takeWhile_replicate_append,
    takeWhile_pad_of_charset (encodeLoop b 0).reverse
      (fun x hx => base64_encode_mem_charset x (List.mem_reverse.mp hx))]
  simp

/-! ### The claims -/

/-- C1: for every finite byte sequence `b`, `base64_decode (base64_encode b)`
returns `Ok b`. -/
theorem C1_decode_encode_roundtrip (b : List Nat) (hb : ∀ w ∈ b, w < 256) :
    base64_decode (base64_encode b) = .ok b :=
  decode_encode_ok hb

theorem C1_decode_encode_roundtrip_witness :
    base64_decode (base64_encode [104, 101, 108, 108, 111]) = .ok [104, 101, 108, 108, 111] :=
  C1_decode_encode_roundtrip [104, 101, 108, 108, 111] (by decide)

/-- C2 counterexample: decoding the one-byte input `"="` performs the
held-bit decrement by 2 with a held-bit count of 0, i.e. the `u8`
subtraction underflows, contrary to the claim that it never does; under the
wrapping semantics the call still returns `InvalidPadding 6`. -/
theorem C2_underflow_counterexample :
    decodeUnderflows [61] = true ∧ base64_decode [61] = .error (.invalidPadding 6) := by
  exact ⟨by decide, rfl⟩

/-- C2 (amended): for every input, `base64_decode` terminates and returns
either `Ok` or one of exactly the two errors, under release-mode wrapping
arithmetic; the decrement by 2 for a padding byte can however underflow,
e.g. on the input `"="`. -/
theorem C2_decode_total_amended :
    (∀ s : List Nat, (∃ bs, base64_decode s = .ok bs) ∨
      (∃ b, base64_decode s = .error (.invalidSymbol b)) ∨
      (∃ k, base64_decode s = .error (.invalidPadding k))) ∧
    decodeUnderflows [61] = true := by
  constructor
  · intro s
    cases h : base64_decode s with
    | ok bs => exact Or.inl ⟨bs, rfl⟩
    | error e =>
      cases e with
      | invalidSymbol b => exact Or.inr (Or.inl ⟨b, rfl⟩)
      | invalidPadding k => exact Or.inr (Or.inr ⟨k, rfl⟩)
  · decide

/-- C3: every text produced by the encoder decodes successfully, and
re-encoding the decoded bytes gives the text back. -/
theorem C3_encode_decode_encode (b t : List Nat) (hb : ∀ w ∈ b, w < 256)
    (ht : t = base64_encode b) :
    ∃ d, base64_decode t = .ok d ∧ base64_encode d = t := by
  subst ht
  exact ⟨b, decode_encode_ok hb, rfl⟩

theorem C3_encode_decode_encode_witness :
    ∃ d, base64_decode [77, 65, 61, 61] = .ok d ∧ base64_encode d = [77, 65, 61, 61] :=
  C3_encode_decode_encode [48] [77, 65, 61, 61] (by decide)
    (by rw [base64_encode_one (by norm_num)]; decide)

/-- C4: the encoding's length is a multiple of 4, and it is 0 exactly for
the empty input. -/
theorem C4_encode_length (b : List Nat) :
    (base64_encode b).length % 4 = 0 ∧ ((base64_encode b).length = 0 ↔ b.length = 0) := by
  have h := base64_encode_length b
  obtain ⟨m, r, hr3, hmr⟩ : ∃ m r, r < 3 ∧ b.length = 3 * m + r :=
    ⟨b.length / 3, b.length % 3, Nat.mod_lt _ (by norm_num), by omega⟩
  constructor
  · interval_cases r <;> omega
  · interval_cases r <;> omega

/-- C5: the number of padding characters at the end of an encoding is
`(3 - len b % 3) % 3`: zero, two, one for `len b % 3` = 0, 1, 2. -/
theorem C5_padding_count (b : List Nat) :
    trailingPadCount (base64_encode b) = (3 - b.length % 3) % 3 := by
  rw [trailingPadCount_encode]
  obtain ⟨m, r, hr3, hmr⟩ : ∃ m r, r < 3 ∧ b.length = 3 * m + r :=
    ⟨b.length / 3, b.length % 3, Nat.mod_lt _ (by norm_num), by omega⟩
  rw [hmr]
  interval_cases r <;> omega

/-- C6: the first byte that is neither an alphabet member nor the padding
byte makes the decoder fail at once with `InvalidSymbol` carrying that raw
byte; no partial output is returned. -/
theorem C6_invalid_symbol (pre : List Nat) (bb : Nat) (rest : List Nat)
    (hpre : ∀ x ∈ pre, x ∈ CHARSET ∨ x = PADDING) (h1 : bb ∉ CHARSET)
    (h2 : bb ≠ PADDING) :
    base64_decode (pre ++ bb :: rest) = .error (.invalidSymbol bb) :=
  decodeLoop_invalid_spec pre bb rest 0 0 [] hpre h1 h2 (by norm_num)

theorem C6_invalid_symbol_witness :
    base64_decode [33, 33, 33, 33] = .error (.invalidSymbol 33) :=
  C6_invalid_symbol [] 33 [33, 33, 33] (by decide) (by decide) (by decide)

/-- C7: when the whole input is consumed with a nonzero held-bit count, the
decoder fails with `InvalidPadding` carrying that count. -/
theorem C7_invalid_padding (s : List Nat)
    (hval : ∀ x ∈ s, x ∈ CHARSET ∨ x = PADDING) (hne : finalBitsLoop s 0 ≠ 0) :
    base64_decode s = .error (.invalidPadding (finalBitsLoop s 0)) :=
  (decodeLoop_valid_spec s 0 0 [] hval (by norm_num)).2 hne

theorem C7_invalid_padding_witness :
    finalBitsLoop [65] 0 = 6 ∧ base64_decode [65] = .error (.invalidPadding 6) := by
  have h := C7_invalid_padding [65] (by decide) (by decide)
  have h6 : finalBitsLoop [65] 0 = 6 := rfl
  rw [h6] at h
  exact ⟨h6, h⟩

/-- C8: padding position alone is never grounds for rejection: any input of
alphabet and padding bytes, padding anywhere, is accepted whenever the
final held-bit count balances to exactly zero. -/
theorem C8_mid_padding_accepted (s : List Nat)
    (hval : ∀ x ∈ s, x ∈ CHARSET ∨ x = PADDING) (h0 : finalBitsLoop s 0 = 0) :
    ∃ bs, base64_decode s = .ok bs :=
  (decodeLoop_valid_spec s 0 0 [] hval (by norm_num)).1 h0

theorem C8_mid_padding_accepted_witness :
    ∃ bs, base64_decode [65, 66, 61, 61, 67, 68, 61, 61] = .ok bs :=
  C8_mid_padding_accepted [65, 66, 61, 61, 67, 68, 61, 61] (by decide) (by decide)

/-- C9: the decoder accepts non-canonical encodings: "MB==" and "MA=="
differ only in bits the decoder discards, and both decode to `[0x30]`, so
decoding is not injective on accepted inputs. -/
theorem C9_non_canonical :
    base64_decode [77, 66, 61, 61] = .ok [48] ∧
    base64_decode [77, 65, 61, 61] = .ok [48] ∧
    [77, 66, 61, 61] ≠ ([77, 65, 61, 61] : List Nat) := by
  refine ⟨rfl, rfl, by decide⟩

/-- C10: on alphabet-only input of length L, decoding returns Ok with
exactly `6 * L / 8` bytes when `L % 4 = 0`, and otherwise fails with
`InvalidPadding (6 * L % 8)`. -/
theorem C10_charset_only (s : List Nat) (hval : ∀ x ∈ s, x ∈ CHARSET) :
    (s.length % 4 = 0 →
      ∃ bs, base64_decode s = .ok bs ∧ bs.length = 6 * s.length / 8) ∧
    (s.length % 4 ≠ 0 →
      base64_decode s = .error (.invalidPadding (6 * s.length % 8))) := by
  obtain ⟨bs, hlen, hbs⟩ := decodeLoop_charset_spec s 0 0 [] hval (by norm_num)
  constructor
  · intro h4
    refine ⟨bs, ?_, by rw [hlen]; omega⟩
    rw [show base64_decode s = decodeLoop s 0 0 [] from rfl, hbs, if_pos (by omega)]
    simp
  · intro h4
    rw [show base64_decode s = decodeLoop s 0 0 [] from rfl, hbs, if_neg (by omega),
      show (0 + 6 * s.length) % 8 = 6 * s.length % 8 from by omega]

theorem C10_charset_only_witness :
    (∃ bs, base64_decode [65, 66, 67, 68] = .ok bs ∧ bs.length = 3) ∧
      base64_decode [65] = .error (.invalidPadding 6) := by
  constructor
  · obtain ⟨bs, h1, h2⟩ := (C10_charset_only [65, 66, 67, 68] (by decide)).1 (by decide)
    exact ⟨bs, h1, by simpa using h2⟩
  · have h := (C10_charset_only [65] (by decide)).2 (by decide)
    simpa using h
